import Mathlib

/-!
Verification of the SiRF GPS message codec layer of the `irox` repository.

The development shallowly embeds the Rust sources:
  * `data-formats/sirf/src/input/util.rs` — the scaled time-of-week codec
    (`write_gpstow`, `read_gpstow`, `GPSTOW_SCALE`), whose arithmetic is IEEE-754
    binary64.  Doubles are modelled exactly as rational values together with the
    non-finite shapes (`Float64` below); every arithmetic step of the source is
    mirrored by correctly-rounded rational arithmetic.
  * `data-formats/sirf/src/input/xff_asciidata.rs` — the catch-all text message
    (`AsciiData`, `AsciiDataBuilder`).
The byte-cursor primitives (`read_be_u32`, `write_be_u32`, `read_all_str_lossy`)
come from the `irox_bits`/`irox_tools` crates whose sources are not part of this
tree; they are modelled from the specification and marked as such.
-/

/-! ## Exact model of IEEE-754 binary64 -/

/-- Model of a Rust `f64`.  A finite double is carried as its exact rational
value; the zero sign bit is not modelled (no operation modelled in this file
distinguishes `-0.0` from `0.0`).  `inf true` is negative infinity. -/
inductive Float64 where
  | nan : Float64
  | inf (neg : Bool) : Float64
  | finite (q : ℚ) : Float64
deriving DecidableEq

/-- Integer power of two as a rational, computable for negative exponents. -/
def pow2z (e : ℤ) : ℚ :=
  if 0 ≤ e then ((2 ^ e.toNat : ℕ) : ℚ) else 1 / ((2 ^ (-e).toNat : ℕ) : ℚ)

/-- Fuel-driven base-two logarithm on naturals; structural recursion on the
fuel keeps it reducible by the kernel. -/
def log2Aux : ℕ → ℕ → ℕ
  | 0, _ => 0
  | f + 1, n => if n ≤ 1 then 0 else log2Aux f (n / 2) + 1

/-- Floor of the base-two logarithm of a positive rational below `2^1024`
(arbitrary below `2^(-1074)`, where the subnormal exponent clamp makes the
value irrelevant). -/
def floorLog2 (q : ℚ) : ℤ :=
  if q < pow2z (-1074) then -1126
  else (log2Aux 2100 ⌊q * pow2z 1074⌋₊ : ℤ) - 1074

/-- Round a rational to the nearest integer, ties to even. -/
def roundNearestEven (x : ℚ) : ℤ :=
  if x - ⌊x⌋ < 1 / 2 then ⌊x⌋
  else if 1 / 2 < x - ⌊x⌋ then ⌊x⌋ + 1
  else if ⌊x⌋ % 2 = 0 then ⌊x⌋ else ⌊x⌋ + 1

/-- Exponent of the binary64 rounding grid at magnitude `q`: 52 bits below
the leading bit, clamped to the subnormal exponent `-1074`. -/
def roundExp (q : ℚ) : ℤ := max (floorLog2 |q| - 52) (-1074)

/-- Significand of `q` on the rounding grid, rounded to nearest, ties to
even. -/
def roundIntAt (q : ℚ) : ℤ := roundNearestEven (q * pow2z (-roundExp q))

/-- Correct rounding of an exact rational to the nearest binary64
(round-to-nearest, ties-to-even, subnormals and overflow to infinity
included).  This is the rounding every IEEE binary64 operation performs on
its exact result. -/
def roundRat (q : ℚ) : Float64 :=
  if q = 0 then .finite 0
  else if pow2z 1024 ≤ |q| then .inf (decide (q < 0))
  else if pow2z 1024 ≤ |(roundIntAt q : ℚ) * pow2z (roundExp q)| then .inf (decide (q < 0))
  else .finite ((roundIntAt q : ℚ) * pow2z (roundExp q))

/-- IEEE binary64 multiplication on the model. -/
def fmul : Float64 → Float64 → Float64
  | .nan, _ => .nan
  | _, .nan => .nan
  | .inf s, .inf t => .inf (s != t)
  | .inf s, .finite q => if q = 0 then .nan else .inf (s != decide (q < 0))
  | .finite q, .inf s => if q = 0 then .nan else .inf (s != decide (q < 0))
  | .finite a, .finite b => roundRat (a * b)

/-- IEEE binary64 division on the model. -/
def fdiv : Float64 → Float64 → Float64
  | .nan, _ => .nan
  | _, .nan => .nan
  | .inf _, .inf _ => .nan
  | .inf s, .finite q => .inf (s != decide (q < 0))
  | .finite _, .inf _ => .finite 0
  | .finite a, .finite b =>
    if b = 0 then (if a = 0 then .nan else .inf (decide (a < 0)))
    else roundRat (a / b)

/-- Rust `f64::round`: round half away from zero, restricted to a rational
argument.  The result of rounding a finite double to an integer is always
exactly representable, so no re-rounding occurs. -/
def roundAwayInt (q : ℚ) : ℤ :=
  if 0 ≤ q then ⌊q + 1 / 2⌋ else -⌊-q + 1 / 2⌋

/-- Rust `f64::round` on the model. -/
def fround : Float64 → Float64
  | .nan => .nan
  | .inf s => .inf s
  | .finite q => .finite ((roundAwayInt q : ℤ) : ℚ)

/-- Rust saturating cast `as u32`: NaN and negatives map to `0`, values above
`u32::MAX` map to `u32::MAX`, finite values in range truncate toward zero. -/
def f64_as_u32 : Float64 → ℕ
  | .nan => 0
  | .inf true => 0
  | .inf false => 2 ^ 32 - 1
  | .finite q => if q < 0 then 0 else min ⌊q⌋₊ (2 ^ 32 - 1)

/-- Rust `f64::from(u32)`; exact because every `u32` is below `2^53`. -/
def u32_to_f64 (n : ℕ) : Float64 := .finite (n : ℚ)

/-- Negativity test on a double (used to state the sign-related claims). -/
def Float64.isNeg : Float64 → Bool
  | .nan => false
  | .inf s => s
  | .finite q => decide (q < 0)

/-! ## Byte cursor (spec-modelled) and the gpstow codec -/

/-- Error taxonomy of the byte cursor, from the spec (section 4.1/7). -/
inductive Error where
  | UnexpectedEnd : Error
  | IoError : Error
deriving DecidableEq

/-- Sequential byte reader: a buffer plus a running position, as the spec's
Byte Cursor describes ("tracks a running position and never reads the same
byte twice").  Bytes are naturals below 256. -/
structure Cursor where
  data : List ℕ
  pos : ℕ
deriving DecidableEq

/-- Bytes remaining at the cursor position. -/
def Cursor.remaining (c : Cursor) : List ℕ := c.data.drop c.pos

/-- Big-endian 4-byte representation of an unsigned 32-bit integer. -/
def be32 (n : ℕ) : List ℕ :=
  [n / 2 ^ 24 % 256, n / 2 ^ 16 % 256, n / 2 ^ 8 % 256, n % 256]

/-- Modelled from the spec: `irox_bits::MutBits::write_be_u32` (the crate's
source is not in this tree).  Spec section 4.1/6: forward-only writes of
fixed-width big-endian integers; writes to the in-memory buffer never fail. -/
def write_be_u32 (out : List ℕ) (n : ℕ) : List ℕ := out ++ be32 n

/-- Modelled from the spec: `irox_bits::Bits::read_be_u32` (the crate's source
is not in this tree).  Spec section 4.1: reads a 4-byte big-endian unsigned
integer, failing with `UnexpectedEnd` if fewer than 4 bytes remain — no
partial reads. -/
def read_be_u32 (c : Cursor) : Except Error (ℕ × Cursor) :=
  match c.data.drop c.pos with
  | b0 :: b1 :: b2 :: b3 :: _ =>
    .ok (((b0 * 256 + b1) * 256 + b2) * 256 + b3, ⟨c.data, c.pos + 4⟩)
  | _ => .error .UnexpectedEnd

/-- Decidable equality of fallible results, used to evaluate the codec on
concrete inputs. -/
instance {ε α : Type} [DecidableEq ε] [DecidableEq α] : DecidableEq (Except ε α) := fun x y =>
  match x, y with
  | .ok a, .ok b => decidable_of_iff (a = b) (by simp)
  | .error a, .error b => decidable_of_iff (a = b) (by simp)
  | .ok _, .error _ => isFalse (by simp)
  | .error _, .ok _ => isFalse (by simp)

/-- Source `util.rs`: `pub const GPSTOW_SCALE: f64 = 100.0;` (exact). -/
def GPSTOW_SCALE : Float64 := .finite 100

/-- Source `util.rs` `write_gpstow`: `let enc = (val * GPSTOW_SCALE).round() as
u32; out.write_be_u32(enc)`.  The in-memory sink is the byte list `out`;
such writes never fail (spec section 4.1). -/
def write_gpstow (out : List ℕ) (val : Float64) : List ℕ :=
  write_be_u32 out (f64_as_u32 (fround (fmul val GPSTOW_SCALE)))

/-- Source `util.rs` `read_gpstow`: `let read = out.read_be_u32()?;
Ok(f64::from(read) / GPSTOW_SCALE)`. -/
def read_gpstow (c : Cursor) : Except Error (Float64 × Cursor) :=
  match read_be_u32 c with
  | .ok (read, c') => .ok (fdiv (u32_to_f64 read) GPSTOW_SCALE, c')
  | .error e => .error e

/-- Encode a time-of-week value into an empty buffer and read it back,
returning the decoded finite value (used to state the round-trip claims). -/
def gpstow_roundtrip (q : ℚ) : Option ℚ :=
  match read_gpstow ⟨write_gpstow [] (.finite q), 0⟩ with
  | .ok (.finite r, _) => some r
  | _ => none

/-- The scaled integer `(val * GPSTOW_SCALE).round()` of the source, when the
scaled product is finite. -/
def gpstow_scaled (v : Float64) : Option ℤ :=
  match fmul v GPSTOW_SCALE with
  | .finite p => some (roundAwayInt p)
  | _ => none

/-- Reference scaled-field encoder following the spec's words (section 4.2):
"encode(value: f64, scale: f64) -> u32 computes round(value * scale) and
writes it big-endian", with rounding half away from zero on the scaled value,
and out-of-range scaled values a caller error (`none`). -/
def spec_encode (value : Float64) (scale : ℚ) : Option (List ℕ) :=
  match fmul value (.finite scale) with
  | .finite p =>
    let n := roundAwayInt p
    if 0 ≤ n ∧ n < 2 ^ 32 then some (be32 n.toNat) else none
  | _ => none

/-- Reference scaled-field decoder following the spec's words (section 4.2):
"decode(raw: u32, scale: f64) -> f64 computes raw / scale" (an IEEE binary64
division of the exactly-converted raw integer by the scale). -/
def spec_decode (raw : ℕ) (scale : ℚ) : Float64 :=
  fdiv (.finite (raw : ℚ)) (.finite scale)

/-! ## The catch-all text message (`xff_asciidata.rs`) -/

/-- UTF-8 encoding of one unicode scalar value, as Rust `String::into_bytes`
produces for each `char`. -/
def utf8EncodeChar (c : Char) : List ℕ :=
  if c.toNat < 0x80 then [c.toNat]
  else if c.toNat < 0x800 then [0xC0 + c.toNat / 64, 0x80 + c.toNat % 64]
  else if c.toNat < 0x10000 then
    [0xE0 + c.toNat / 4096, 0x80 + c.toNat / 64 % 64, 0x80 + c.toNat % 64]
  else
    [0xF0 + c.toNat / 262144, 0x80 + c.toNat / 4096 % 64, 0x80 + c.toNat / 64 % 64,
      0x80 + c.toNat % 64]

/-- UTF-8 encoding of a string (Rust `String::into_bytes`). -/
def utf8Encode (s : List Char) : List ℕ := (s.map utf8EncodeChar).flatten

/-- The Unicode replacement character `U+FFFD` substituted for undecodable
byte sequences by a lossy decode. -/
def replacementChar : Char := Char.ofNat 0xFFFD

/-- Continuation-byte test (`0x80..=0xBF`). -/
def isCont (b : ℕ) : Bool := 0x80 ≤ b && b < 0xC0

/-- Decode one unicode scalar value from a lead byte `b` and the following
bytes, replacing undecodable sequences with `U+FFFD`; returns the decoded
character and the bytes not consumed.  A structurally complete but
semantically invalid sequence (overlong form, surrogate, out of range) is
consumed whole; a sequence cut short consumes only the lead byte. -/
def utf8Step (b : ℕ) (rest : List ℕ) : Char × List ℕ :=
  if b < 0x80 then (Char.ofNat b, rest)
  else if b < 0xC0 then (replacementChar, rest)
  else if b < 0xE0 then
    match rest with
    | b1 :: r1 =>
      if isCont b1 then
        if 0x80 ≤ (b - 0xC0) * 64 + (b1 - 0x80) then
          (Char.ofNat ((b - 0xC0) * 64 + (b1 - 0x80)), r1)
        else (replacementChar, r1)
      else (replacementChar, rest)
    | [] => (replacementChar, rest)
  else if b < 0xF0 then
    match rest with
    | b1 :: b2 :: r2 =>
      if isCont b1 && isCont b2 then
        if 0x800 ≤ (b - 0xE0) * 4096 + (b1 - 0x80) * 64 + (b2 - 0x80) ∧
            ((b - 0xE0) * 4096 + (b1 - 0x80) * 64 + (b2 - 0x80) < 0xD800 ∨
              0xE000 ≤ (b - 0xE0) * 4096 + (b1 - 0x80) * 64 + (b2 - 0x80)) then
          (Char.ofNat ((b - 0xE0) * 4096 + (b1 - 0x80) * 64 + (b2 - 0x80)), r2)
        else (replacementChar, r2)
      else (replacementChar, rest)
    | _ => (replacementChar, rest)
  else if b < 0xF8 then
    match rest with
    | b1 :: b2 :: b3 :: r3 =>
      if isCont b1 && isCont b2 && isCont b3 then
        if 0x10000 ≤ (b - 0xF0) * 262144 + (b1 - 0x80) * 4096 + (b2 - 0x80) * 64 + (b3 - 0x80) ∧
            (b - 0xF0) * 262144 + (b1 - 0x80) * 4096 + (b2 - 0x80) * 64 + (b3 - 0x80) <
              0x110000 then
          (Char.ofNat ((b - 0xF0) * 262144 + (b1 - 0x80) * 4096 + (b2 - 0x80) * 64 + (b3 - 0x80)),
            r3)
        else (replacementChar, r3)
      else (replacementChar, rest)
    | _ => (replacementChar, rest)
  else (replacementChar, rest)

/-- Fuel-driven lossy UTF-8 decoding loop; the fuel is instantiated with the
length of the byte list, which always suffices because every step consumes at
least the lead byte. -/
def utf8DecodeAux : ℕ → List ℕ → List Char
  | 0, _ => []
  | _, [] => []
  | f + 1, b :: rest =>
    match utf8Step b rest with
    | (c, rest') => c :: utf8DecodeAux f rest'

/-- Lossy UTF-8 decoding of an entire byte list, total by construction:
undecodable byte sequences are replaced with `U+FFFD`, never fatal (Rust
`String::from_utf8_lossy`). -/
def utf8LossyDecode (l : List ℕ) : List Char := utf8DecodeAux l.length l

/-- Modelled from the spec: `irox_tools::bits::Bits::read_all_str_lossy` (the
crate's source is not in this tree).  Spec sections 4.1 and 4.6: bulk "read
remaining bytes as text", treating the entire remaining payload as a
best-effort text string via lossy decoding; the read itself cannot fail and
consumes everything that remains. -/
def read_all_str_lossy (c : Cursor) : Except Error (List Char × Cursor) :=
  .ok (utf8LossyDecode c.remaining, ⟨c.data, c.data.length⟩)

/-- Source `xff_asciidata.rs`: `pub struct AsciiData { message: String }`.  A
Rust `String` is a sequence of unicode scalar values, modelled as `List Char`
(Lean's `Char` is exactly a unicode scalar value). -/
structure AsciiData where
  message : List Char
deriving DecidableEq

/-- Outcome of a Rust call that may panic (`todo!()` always panics). -/
inductive Outcome (α : Type) where
  | panics : Outcome α
  | returns (a : α) : Outcome α
deriving DecidableEq

/-- Source `xff_asciidata.rs` `Packet::get_bytes`:
`Ok(self.message.clone().into_bytes())` — the UTF-8 bytes of the message,
always `Ok`. -/
def AsciiData.get_bytes (a : AsciiData) : Except Error (List ℕ) :=
  .ok (utf8Encode a.message)

/-- Source `xff_asciidata.rs` `Packet::get_type`: `type PacketType = ();` and
a body of `todo!()`, which unconditionally panics. -/
def AsciiData.get_type (_ : AsciiData) : Outcome Unit := .panics

/-- Source `xff_asciidata.rs` `PacketBuilder::<AsciiData>::build_from`:
`Ok(AsciiData { message: input.read_all_str_lossy()? })`.  The builder value
`AsciiDataBuilder` carries no state, so the build operation is a function of
the cursor alone. -/
def AsciiDataBuilder.build_from (input : Cursor) : Except Error (AsciiData × Cursor) :=
  match read_all_str_lossy input with
  | .ok (s, c') => .ok (⟨s⟩, c')
  | .error e => .error e

/-! ## Helper lemmas about the binary64 rounding model -/

theorem pow2z_eq (e : ℤ) : pow2z e = (2 : ℚ) ^ e := by
  unfold pow2z
  split
  · next h =>
    conv_rhs => rw [← Int.toNat_of_nonneg h, zpow_natCast]
    push_cast
    ring
  · next h =>
    have h2 : (0 : ℤ) ≤ -e := by omega
    have hc : ((2 ^ (-e).toNat : ℕ) : ℚ) = (2 : ℚ) ^ (-e).toNat := by push_cast; ring
    rw [one_div, hc, ← zpow_natCast (2 : ℚ) (-e).toNat, Int.toNat_of_nonneg h2, ← zpow_neg,
      neg_neg]

theorem pow2z_pos (e : ℤ) : 0 < pow2z e := by
  rw [pow2z_eq]
  positivity

theorem pow2z_mono {a b : ℤ} (h : a ≤ b) : pow2z a ≤ pow2z b := by
  rw [pow2z_eq, pow2z_eq]
  exact zpow_le_zpow_right₀ (by norm_num) h

theorem pow2z_add (a b : ℤ) : pow2z (a + b) = pow2z a * pow2z b := by
  rw [pow2z_eq, pow2z_eq, pow2z_eq]
  exact zpow_add₀ (by norm_num) a b

theorem pow2z_mul_pow2z_neg (a : ℤ) : pow2z a * pow2z (-a) = 1 := by
  rw [← pow2z_add]
  simp [pow2z]

theorem natPow_cast_eq_pow2z (k : ℕ) : ((2 ^ k : ℕ) : ℚ) = pow2z (k : ℤ) := by
  rw [pow2z_eq, zpow_natCast]
  push_cast
  ring

theorem pow2z_ofNat (k : ℕ) : pow2z (k : ℤ) = ((2 ^ k : ℕ) : ℚ) :=
  (natPow_cast_eq_pow2z k).symm

theorem pow2z_negOfNat (k : ℕ) : pow2z (-(k : ℤ)) = 1 / ((2 ^ k : ℕ) : ℚ) := by
  by_cases hk : k = 0
  · subst hk
    norm_num [pow2z]
  · have h1 : ¬ ((0 : ℤ) ≤ -(k : ℤ)) := by omega
    have h2 : ((-(-(k : ℤ))).toNat : ℕ) = k := by omega
    rw [pow2z, if_neg h1, h2]

theorem log2Aux_spec : ∀ (fuel n : ℕ), 1 ≤ n → n < 2 ^ fuel →
    2 ^ log2Aux fuel n ≤ n ∧ n < 2 ^ (log2Aux fuel n + 1) := by
  intro fuel
  induction fuel with
  | zero => intro n h1 h2; omega
  | succ f ih =>
    intro n h1 h2
    unfold log2Aux
    by_cases hn : n ≤ 1
    · simp only [if_pos hn]
      omega
    · simp only [if_neg hn]
      have hf : (2 : ℕ) ^ (f + 1) = 2 * 2 ^ f := by ring
      have h3 : n / 2 < 2 ^ f := by omega
      have h4 : 1 ≤ n / 2 := by omega
      obtain ⟨hlo, hhi⟩ := ih (n / 2) h4 h3
      constructor
      · calc (2 : ℕ) ^ (log2Aux f (n / 2) + 1) = 2 * 2 ^ log2Aux f (n / 2) := by ring
        _ ≤ n := by omega
      · have : (2 : ℕ) ^ (log2Aux f (n / 2) + 1 + 1) = 2 * 2 ^ (log2Aux f (n / 2) + 1) := by
          ring
        omega

theorem floorLog2_spec {q : ℚ} (h1 : pow2z (-1074) ≤ q) (h2 : q < pow2z 1024) :
    pow2z (floorLog2 q) ≤ q ∧ q < pow2z (floorLog2 q + 1) := by
  have hq0 : 0 < q := lt_of_lt_of_le (pow2z_pos _) h1
  unfold floorLog2
  rw [if_neg (not_lt.mpr h1)]
  set n : ℕ := ⌊q * pow2z 1074⌋₊ with hn
  have hqp : 0 < q * pow2z 1074 := mul_pos hq0 (pow2z_pos _)
  have h1n : 1 ≤ n := by
    rw [hn]
    refine (Nat.one_le_floor_iff _).mpr ?_
    have := mul_le_mul_of_nonneg_right h1 (le_of_lt (pow2z_pos 1074))
    rwa [← pow2z_add, neg_add_cancel] at this
  have hnup : (n : ℚ) ≤ q * pow2z 1074 := Nat.floor_le (le_of_lt hqp)
  have hnlow : q * pow2z 1074 < (n : ℚ) + 1 := Nat.lt_floor_add_one _
  have hfuel : n < 2 ^ 2100 := by
    have hlt : (n : ℚ) < ((2 ^ 2100 : ℕ) : ℚ) := by
      rw [natPow_cast_eq_pow2z]
      calc (n : ℚ) ≤ q * pow2z 1074 := hnup
      _ < pow2z 1024 * pow2z 1074 := mul_lt_mul_of_pos_right h2 (pow2z_pos _)
      _ = pow2z 2098 := by rw [← pow2z_add]; norm_num
      _ ≤ pow2z ((2100 : ℕ) : ℤ) := pow2z_mono (by omega)
    exact_mod_cast hlt
  obtain ⟨hlo, hhi⟩ := log2Aux_spec 2100 n h1n hfuel
  set L : ℕ := log2Aux 2100 n with hL
  constructor
  · have hstep : pow2z (L : ℤ) ≤ q * pow2z 1074 := by
      calc pow2z (L : ℤ) = ((2 ^ L : ℕ) : ℚ) := (natPow_cast_eq_pow2z L).symm
      _ ≤ (n : ℚ) := by exact_mod_cast hlo
      _ ≤ q * pow2z 1074 := hnup
    have hstep2 := mul_le_mul_of_nonneg_right hstep (le_of_lt (pow2z_pos (-1074)))
    rw [mul_assoc, pow2z_mul_pow2z_neg, mul_one, ← pow2z_add] at hstep2
    have harith : (L : ℤ) + -1074 = (L : ℤ) - 1074 := by ring
    rwa [harith] at hstep2
  · have hq1 : q * pow2z 1074 < pow2z ((L : ℤ) + 1) := by
      calc q * pow2z 1074 < (n : ℚ) + 1 := hnlow
      _ ≤ ((2 ^ (L + 1) : ℕ) : ℚ) := by exact_mod_cast hhi
      _ = pow2z ((L + 1 : ℕ) : ℤ) := natPow_cast_eq_pow2z (L + 1)
      _ = pow2z ((L : ℤ) + 1) := by push_cast; ring_nf
    have hstep := mul_lt_mul_of_pos_right hq1 (pow2z_pos (-1074))
    rw [mul_assoc, pow2z_mul_pow2z_neg, mul_one, ← pow2z_add] at hstep
    have harith : (L : ℤ) + 1 + -1074 = (L : ℤ) - 1074 + 1 := by ring
    rwa [harith] at hstep

theorem roundNearestEven_err (x : ℚ) : |(roundNearestEven x : ℚ) - x| ≤ 1 / 2 := by
  unfold roundNearestEven
  have hfl : (⌊x⌋ : ℚ) ≤ x := Int.floor_le x
  have hfu : x < (⌊x⌋ : ℚ) + 1 := Int.lt_floor_add_one x
  split
  · next h =>
    rw [abs_le]
    constructor <;> linarith
  · split
    · next h1 h2 =>
      rw [not_lt] at h1
      rw [abs_le]
      push_cast
      constructor <;> linarith
    · split
      · next h1 h2 h3 =>
        rw [not_lt] at h1
        rw [not_lt] at h2
        rw [abs_le]
        constructor <;> linarith
      · next h1 h2 h3 =>
        rw [not_lt] at h1
        rw [not_lt] at h2
        rw [abs_le]
        push_cast
        constructor <;> linarith

theorem roundNearestEven_nonneg {x : ℚ} (hx : 0 ≤ x) : 0 ≤ roundNearestEven x := by
  unfold roundNearestEven
  have hfl : (0 : ℤ) ≤ ⌊x⌋ := Int.floor_nonneg.mpr hx
  split
  · next h =>
    by_contra hc
    push_neg at hc
    have : (⌊x⌋ : ℚ) ≤ x := Int.floor_le x
    omega
  · split
    · omega
    · split <;> omega

theorem roundAwayInt_err {q : ℚ} (hq : 0 ≤ q) : |(roundAwayInt q : ℚ) - q| ≤ 1 / 2 := by
  unfold roundAwayInt
  rw [if_pos hq]
  have hfl : (⌊q + 1 / 2⌋ : ℚ) ≤ q + 1 / 2 := Int.floor_le _
  have hfu : q + 1 / 2 < (⌊q + 1 / 2⌋ : ℚ) + 1 := Int.lt_floor_add_one _
  rw [abs_le]
  constructor <;> linarith

theorem roundAwayInt_nonneg {q : ℚ} (hq : 0 ≤ q) : 0 ≤ roundAwayInt q := by
  unfold roundAwayInt
  rw [if_pos hq]
  exact Int.floor_nonneg.mpr (by linarith)

theorem roundAwayInt_nonpos {q : ℚ} (hq : q < 0) : roundAwayInt q ≤ 0 := by
  unfold roundAwayInt
  rw [if_neg (not_le.mpr hq)]
  have : (0 : ℤ) ≤ ⌊-q + 1 / 2⌋ := Int.floor_nonneg.mpr (by linarith)
  omega

theorem pow2z_half (e : ℤ) : pow2z (e - 1) = 1 / 2 * pow2z e := by
  rw [show e - 1 = -1 + e by ring, pow2z_add]
  norm_num [pow2z]

/-- Main correctly-rounded approximation lemma: rounding a nonnegative
rational bounded by `2^(m+1)` to binary64 yields a finite nonnegative value
within `2^(m-53)` (a half-ulp at that magnitude). -/
theorem roundRat_approx (q : ℚ) (m : ℤ) (h0 : 0 ≤ q) (h1 : q < pow2z (m + 1))
    (hm1 : -1022 ≤ m) (hm2 : m ≤ 1000) :
    ∃ r : ℚ, roundRat q = .finite r ∧ 0 ≤ r ∧ |r - q| ≤ pow2z (m - 53) := by
  by_cases hq0 : q = 0
  · refine ⟨0, by rw [roundRat, if_pos hq0], le_refl 0, ?_⟩
    rw [hq0]
    simp only [sub_zero, abs_zero]
    exact le_of_lt (pow2z_pos _)
  · have hqpos : 0 < q := lt_of_le_of_ne h0 (Ne.symm hq0)
    have habs : |q| = q := abs_of_pos hqpos
    have hbig : ¬ pow2z 1024 ≤ |q| := by
      rw [habs, not_le]
      calc q < pow2z (m + 1) := h1
      _ ≤ pow2z 1024 := pow2z_mono (by omega)
    have hele : roundExp q ≤ m - 52 := by
      rw [roundExp]
      refine max_le ?_ (by omega)
      by_cases hsmall : q < pow2z (-1074)
      · have hdummy : floorLog2 |q| = -1126 := by
          unfold floorLog2
          rw [habs, if_pos hsmall]
        omega
      · push_neg at hsmall
        obtain ⟨hlo, hhi⟩ := floorLog2_spec (q := q) hsmall
          (lt_of_lt_of_le h1 (pow2z_mono (by omega)))
        rw [habs]
        have hle : floorLog2 q ≤ m := by
          by_contra hc
          push_neg at hc
          have : pow2z (m + 1) ≤ pow2z (floorLog2 q) := pow2z_mono (by omega)
          linarith
        omega
    set e : ℤ := roundExp q with he
    set n : ℤ := roundIntAt q with hn
    have herr : |(n : ℚ) * pow2z e - q| ≤ pow2z (e - 1) := by
      have hne := roundNearestEven_err (q * pow2z (-e))
      have hpe : 0 < pow2z e := pow2z_pos e
      have key : (n : ℚ) * pow2z e - q = ((n : ℚ) - q * pow2z (-e)) * pow2z e := by
        have hcancel : q * pow2z (-e) * pow2z e = q := by
          rw [mul_assoc, ← pow2z_add, neg_add_cancel]
          simp [pow2z]
        rw [sub_mul, hcancel]
      rw [key, abs_mul, abs_of_pos hpe, pow2z_half]
      have hb : |(n : ℚ) - q * pow2z (-e)| ≤ 1 / 2 := by
        rw [hn, roundIntAt, ← he]
        exact hne
      exact mul_le_mul_of_nonneg_right hb (le_of_lt hpe)
    have herr2 : |(n : ℚ) * pow2z e - q| ≤ pow2z (m - 53) := by
      refine le_trans herr (pow2z_mono (by omega))
    have hnn : 0 ≤ (n : ℚ) * pow2z e := by
      have hn0 : 0 ≤ n := by
        rw [hn, roundIntAt, ← he]
        exact roundNearestEven_nonneg (le_of_lt (mul_pos hqpos (pow2z_pos _)))
      have hq2 : (0 : ℚ) ≤ (n : ℚ) := by exact_mod_cast hn0
      exact mul_nonneg hq2 (le_of_lt (pow2z_pos _))
    have hnotinf : ¬ pow2z 1024 ≤ |(n : ℚ) * pow2z e| := by
      rw [not_le, abs_of_nonneg hnn]
      have h3 : (n : ℚ) * pow2z e ≤ q + pow2z (m - 53) := by
        have h4 := abs_le.mp herr2
        linarith [h4.2]
      calc (n : ℚ) * pow2z e ≤ q + pow2z (m - 53) := h3
      _ < pow2z (m + 1) + pow2z (m - 53) := by linarith
      _ ≤ pow2z 1001 + pow2z 1001 := by
        have e1 : pow2z (m + 1) ≤ pow2z 1001 := pow2z_mono (by omega)
        have e2 : pow2z (m - 53) ≤ pow2z 1001 := pow2z_mono (by omega)
        linarith
      _ = pow2z 1002 := by
        rw [show (1002 : ℤ) = 1 + 1001 by ring, pow2z_add]
        norm_num [pow2z]
        ring
      _ ≤ pow2z 1024 := pow2z_mono (by omega)
    refine ⟨(n : ℚ) * pow2z e, ?_, hnn, herr2⟩
    rw [roundRat, if_neg hq0, if_neg hbig, ← he, ← hn, if_neg hnotinf]

/-! ## Helper lemmas about the byte layer and casts -/

theorem read_be32_of_write (n : ℕ) (h : n < 2 ^ 32) :
    read_be_u32 ⟨be32 n, 0⟩ = .ok (n, ⟨be32 n, 4⟩) := by
  have h24 : (2 : ℕ) ^ 24 = 16777216 := by norm_num
  have h16 : (2 : ℕ) ^ 16 = 65536 := by norm_num
  have h8 : (2 : ℕ) ^ 8 = 256 := by norm_num
  unfold read_be_u32 be32
  rw [h24, h16, h8]
  simp only [List.drop_zero]
  have hval : ((n / 16777216 % 256 * 256 + n / 65536 % 256) * 256 + n / 256 % 256) * 256 +
      n % 256 = n := by
    have h32 : n < 4294967296 := by norm_num at h; omega
    omega
  rw [hval]

theorem f64_as_u32_intCast {n : ℤ} (h0 : 0 ≤ n) (h1 : n < 2 ^ 32) :
    f64_as_u32 (.finite (n : ℚ)) = n.toNat := by
  simp only [f64_as_u32]
  have hneg : ¬ ((n : ℚ) < 0) := by
    rw [not_lt]
    exact_mod_cast h0
  rw [if_neg hneg, ← Int.floor_toNat, Int.floor_intCast]
  have : n.toNat ≤ 2 ^ 32 - 1 := by omega
  omega

theorem f64_as_u32_sat {n : ℤ} (h : 2 ^ 32 ≤ n) :
    f64_as_u32 (.finite (n : ℚ)) = 2 ^ 32 - 1 := by
  simp only [f64_as_u32]
  have hneg : ¬ ((n : ℚ) < 0) := by
    rw [not_lt]
    have : (0 : ℤ) ≤ n := by omega
    exact_mod_cast this
  rw [if_neg hneg, ← Int.floor_toNat, Int.floor_intCast]
  have : 2 ^ 32 - 1 ≤ n.toNat := by omega
  omega

/-! ## Helper lemmas about UTF-8 encoding and lossy decoding -/

theorem char_valid_cases (c : Char) :
    c.toNat < 0xD800 ∨ (0xE000 ≤ c.toNat ∧ c.toNat < 0x110000) := by
  rcases c.valid with h | h
  · left; exact_mod_cast h
  · right; exact ⟨by exact_mod_cast h.1, by exact_mod_cast h.2⟩

/-- Decoding one encoded scalar value recovers it and consumes exactly its
bytes. -/
theorem utf8Step_enc (c : Char) (L : List ℕ) :
    ∃ b tb, utf8EncodeChar c = b :: tb ∧ utf8Step b (tb ++ L) = (c, L) := by
  have hval := char_valid_cases c
  have hofn : Char.ofNat c.toNat = c := Char.ofNat_toNat c
  by_cases h1 : c.toNat < 0x80
  · refine ⟨c.toNat, [], ?_, ?_⟩
    · unfold utf8EncodeChar
      rw [if_pos h1]
    · simp only [List.nil_append]
      unfold utf8Step
      rw [if_pos h1, hofn]
  · by_cases h2 : c.toNat < 0x800
    · refine ⟨0xC0 + c.toNat / 64, [0x80 + c.toNat % 64], ?_, ?_⟩
      · unfold utf8EncodeChar
        rw [if_neg h1, if_pos h2]
      · simp only [List.cons_append, List.nil_append]
        unfold utf8Step
        rw [if_neg (by omega), if_neg (by omega), if_pos (by omega)]
        dsimp only
        rw [if_pos (show isCont (0x80 + c.toNat % 64) = true by simp [isCont]; omega)]
        rw [if_pos (show 0x80 ≤ (0xC0 + c.toNat / 64 - 0xC0) * 64 + (0x80 + c.toNat % 64 - 0x80)
          by omega)]
        have harg : (0xC0 + c.toNat / 64 - 0xC0) * 64 + (0x80 + c.toNat % 64 - 0x80) = c.toNat :=
          by omega
        rw [harg, hofn]
    · by_cases h3 : c.toNat < 0x10000
      · refine ⟨0xE0 + c.toNat / 4096, [0x80 + c.toNat / 64 % 64, 0x80 + c.toNat % 64], ?_, ?_⟩
        · unfold utf8EncodeChar
          rw [if_neg h1, if_neg h2, if_pos h3]
        · simp only [List.cons_append, List.nil_append]
          unfold utf8Step
          rw [if_neg (by omega), if_neg (by omega), if_neg (by omega), if_pos (by omega)]
          dsimp only
          rw [if_pos (show (isCont (0x80 + c.toNat / 64 % 64) && isCont (0x80 + c.toNat % 64))
            = true by simp [isCont]; omega)]
          have harg : (0xE0 + c.toNat / 4096 - 0xE0) * 4096 + (0x80 + c.toNat / 64 % 64 - 0x80)
              * 64 + (0x80 + c.toNat % 64 - 0x80) = c.toNat := by omega
          rw [if_pos (show 0x800 ≤ (0xE0 + c.toNat / 4096 - 0xE0) * 4096 +
              (0x80 + c.toNat / 64 % 64 - 0x80) * 64 + (0x80 + c.toNat % 64 - 0x80) ∧
              ((0xE0 + c.toNat / 4096 - 0xE0) * 4096 + (0x80 + c.toNat / 64 % 64 - 0x80) * 64 +
                (0x80 + c.toNat % 64 - 0x80) < 0xD800 ∨
                0xE000 ≤ (0xE0 + c.toNat / 4096 - 0xE0) * 4096 +
                  (0x80 + c.toNat / 64 % 64 - 0x80) * 64 + (0x80 + c.toNat % 64 - 0x80)) by
            rw [harg]
            omega)]
          rw [harg, hofn]
      · refine ⟨0xF0 + c.toNat / 262144,
          [0x80 + c.toNat / 4096 % 64, 0x80 + c.toNat / 64 % 64, 0x80 + c.toNat % 64], ?_, ?_⟩
        · unfold utf8EncodeChar
          rw [if_neg h1, if_neg h2, if_neg h3]
        · have h4 : c.toNat < 0x110000 := by omega
          simp only [List.cons_append, List.nil_append]
          unfold utf8Step
          rw [if_neg (by omega), if_neg (by omega), if_neg (by omega), if_neg (by omega),
            if_pos (by omega)]
          dsimp only
          rw [if_pos (show (isCont (0x80 + c.toNat / 4096 % 64) &&
            isCont (0x80 + c.toNat / 64 % 64) && isCont (0x80 + c.toNat % 64)) = true by
            simp [isCont]; omega)]
          have harg : (0xF0 + c.toNat / 262144 - 0xF0) * 262144 +
              (0x80 + c.toNat / 4096 % 64 - 0x80) * 4096 + (0x80 + c.toNat / 64 % 64 - 0x80) * 64
              + (0x80 + c.toNat % 64 - 0x80) = c.toNat := by omega
          rw [if_pos (show 0x10000 ≤ (0xF0 + c.toNat / 262144 - 0xF0) * 262144 +
              (0x80 + c.toNat / 4096 % 64 - 0x80) * 4096 +
              (0x80 + c.toNat / 64 % 64 - 0x80) * 64 + (0x80 + c.toNat % 64 - 0x80) ∧
              (0xF0 + c.toNat / 262144 - 0xF0) * 262144 +
              (0x80 + c.toNat / 4096 % 64 - 0x80) * 4096 +
              (0x80 + c.toNat / 64 % 64 - 0x80) * 64 + (0x80 + c.toNat % 64 - 0x80) < 0x110000 by
            rw [harg]
            omega)]
          rw [harg, hofn]

theorem utf8DecodeAux_encode : ∀ (s : List Char) (f : ℕ),
    (utf8Encode s).length ≤ f → utf8DecodeAux f (utf8Encode s) = s := by
  intro s
  induction s with
  | nil =>
    intro f _
    simp only [utf8Encode, List.map_nil, List.flatten_nil]
    cases f <;> rfl
  | cons c s' ih =>
    intro f hf
    have hsplit : utf8Encode (c :: s') = utf8EncodeChar c ++ utf8Encode s' := by
      simp [utf8Encode]
    obtain ⟨b, tb, henc, hstep⟩ := utf8Step_enc c (utf8Encode s')
    rw [hsplit, henc] at hf ⊢
    simp only [List.cons_append, List.length_cons, List.length_append] at hf ⊢
    cases f with
    | zero => omega
    | succ f' =>
      unfold utf8DecodeAux
      rw [hstep]
      have hlen : (utf8Encode s').length ≤ f' := by omega
      show c :: utf8DecodeAux f' (utf8Encode s') = c :: s'
      rw [ih f' hlen]

/-- Lossy UTF-8 decoding is a left inverse of UTF-8 encoding (a Rust `String`
is always valid UTF-8, so the lossy decode of its bytes is lossless). -/
theorem utf8_roundtrip (s : List Char) : utf8LossyDecode (utf8Encode s) = s :=
  utf8DecodeAux_encode s (utf8Encode s).length (le_refl _)

theorem f64_as_u32_int_nonpos {n : ℤ} (h : n ≤ 0) : f64_as_u32 (.finite (n : ℚ)) = 0 := by
  simp only [f64_as_u32]
  by_cases h0 : n = 0
  · subst h0
    norm_num
  · have hneg : ((n : ℚ) < 0) := by
      have : n < 0 := by omega
      exact_mod_cast this
    rw [if_pos hneg]

/-! ## The claims

Core `Rat` arithmetic is irreducible by default, which blocks tactic-side
evaluation of the codec on concrete inputs; it is made semireducible here so
that `decide` can evaluate the model. -/

attribute [local semireducible] Rat.mul Rat.inv Rat.add Rat.sub

/-- Claim C1, counterexample: at the time-of-week value `t = 0.125` (an exact
binary64 value in `[0, 604800)`), the scaled value `12.5` rounds half away
from zero to `13`, and the decode `13.0 / 100.0` rounds up to the binary64
above `13/100`, so the round-trip error is strictly greater than `0.005`
seconds. -/
theorem claim_C1_counterexample :
    (0 : ℚ) ≤ 1 / 8 ∧ (1 / 8 : ℚ) < 604800 ∧
    gpstow_roundtrip (1 / 8) = some (4683743612465316 / 36028797018963968) ∧
    ¬ (|(4683743612465316 / 36028797018963968 : ℚ) - 1 / 8| ≤ 1 / 200) := by
  refine ⟨by norm_num, by norm_num, ?_, ?_⟩
  · set_option maxRecDepth 1000000 in decide
  · decide

/-- Claim C1 (amended): for every time-of-week value `t` in `[0, 604800)`,
writing `t` with `write_gpstow` into an empty buffer and reading it back
with `read_gpstow` yields `t'` with `|t' - t| ≤ 0.005 + 2⁻³³` seconds (the
half-step of the 10 ms resolution plus the binary64 rounding of the multiply
and divide; the bound `0.005` alone fails, see the counterexample). -/
theorem claim_C1_roundtrip_error_bound (q : ℚ) (h0 : 0 ≤ q) (h1 : q < 604800) :
    ∃ r : ℚ, gpstow_roundtrip q = some r ∧ |r - q| ≤ 1 / 200 + 1 / 2 ^ 33 := by
  have hq100 : q * 100 < 60480000 := by linarith
  have hq100n : 0 ≤ q * 100 := by positivity
  have hp26 : pow2z (25 + 1) = 67108864 := by
    rw [show (25 + 1 : ℤ) = ((26 : ℕ) : ℤ) by norm_num, pow2z_ofNat]
    norm_num
  have hmul : fmul (.finite q) GPSTOW_SCALE = roundRat (q * 100) := rfl
  obtain ⟨p, hp, hp0, hperr⟩ := roundRat_approx (q * 100) 25 hq100n
    (by rw [hp26]; linarith) (by norm_num) (by norm_num)
  have hpm28 : pow2z (25 - 53) = 1 / 268435456 := by
    rw [show (25 - 53 : ℤ) = -((28 : ℕ) : ℤ) by norm_num, pow2z_negOfNat]
    norm_num
  rw [hpm28] at hperr
  have h2 := abs_le.mp hperr
  set N : ℤ := roundAwayInt p with hN
  have hNerr : |(N : ℚ) - p| ≤ 1 / 2 := roundAwayInt_err hp0
  have hN0 : 0 ≤ N := roundAwayInt_nonneg hp0
  have h3 := abs_le.mp hNerr
  have hNup : (N : ℚ) ≤ 60480001 := by linarith
  have hN32 : N < 2 ^ 32 := by
    have hc : (N : ℚ) < ((2 ^ 32 : ℤ) : ℚ) := by push_cast; linarith
    exact_mod_cast hc
  have htn : ((N.toNat : ℕ) : ℚ) = (N : ℚ) := by exact_mod_cast Int.toNat_of_nonneg hN0
  have htn32 : N.toNat < 2 ^ 32 := by omega
  have hw : write_gpstow [] (.finite q) = be32 N.toNat := by
    rw [write_gpstow, hmul, hp]
    simp only [fround]
    rw [← hN, f64_as_u32_intCast hN0 hN32, write_be_u32, List.nil_append]
  have hread : read_gpstow ⟨be32 N.toNat, 0⟩ =
      .ok (fdiv (u32_to_f64 N.toNat) GPSTOW_SCALE, ⟨be32 N.toNat, 4⟩) := by
    rw [read_gpstow, read_be32_of_write N.toNat htn32]
  have hdiv : fdiv (u32_to_f64 N.toNat) GPSTOW_SCALE = roundRat ((N : ℚ) / 100) := by
    simp only [u32_to_f64, GPSTOW_SCALE, fdiv]
    rw [if_neg (by norm_num : ¬ (100 : ℚ) = 0), htn]
  have hp20 : pow2z (19 + 1) = 1048576 := by
    rw [show (19 + 1 : ℤ) = ((20 : ℕ) : ℤ) by norm_num, pow2z_ofNat]
    norm_num
  obtain ⟨r, hr, hr0, hrerr⟩ := roundRat_approx ((N : ℚ) / 100) 19 (by positivity)
    (by rw [hp20]; linarith) (by norm_num) (by norm_num)
  have hpm34 : pow2z (19 - 53) = 1 / 17179869184 := by
    rw [show (19 - 53 : ℤ) = -((34 : ℕ) : ℤ) by norm_num, pow2z_negOfNat]
    norm_num
  rw [hpm34] at hrerr
  have h4 := abs_le.mp hrerr
  refine ⟨r, ?_, ?_⟩
  · rw [gpstow_roundtrip, hw, hread, hdiv, hr]
  · rw [abs_le]
    constructor <;> linarith

/-- Claim C1, witness: the amended bound at the concrete value `t = 0.125`. -/
theorem claim_C1_witness :
    ∃ r : ℚ, gpstow_roundtrip (1 / 8) = some r ∧ |r - 1 / 8| ≤ 1 / 200 + 1 / 2 ^ 33 :=
  claim_C1_roundtrip_error_bound (1 / 8) (by norm_num) (by norm_num)

/-- Claim C2: the scaled-field codec matches its reference definition for the
time-of-week field (scale 100).  Whenever the spec-side encoder produces a
4-byte big-endian representation of the rounded scaled value (round half away
from zero on the binary64 product, in `u32` range), `write_gpstow` writes
exactly those bytes; and whenever 4 bytes are available, `read_gpstow` returns
exactly the binary64 quotient `raw / 100.0` of the raw big-endian integer. -/
theorem claim_C2_codec_matches_reference :
    (∀ (v : Float64) (bytes buf : List ℕ), spec_encode v 100 = some bytes →
      write_gpstow buf v = buf ++ bytes) ∧
    (∀ (c c' : Cursor) (raw : ℕ), read_be_u32 c = .ok (raw, c') →
      read_gpstow c = .ok (spec_decode raw 100, c')) := by
  constructor
  · intro v bytes buf henc
    unfold spec_encode at henc
    rcases hm : fmul v (Float64.finite 100) with _ | s | p <;> rw [hm] at henc
    · simp at henc
    · simp at henc
    · simp only at henc
      split at henc
      · next hrange =>
        injection henc with hb
        unfold write_gpstow GPSTOW_SCALE
        rw [hm]
        simp only [fround]
        rw [f64_as_u32_intCast hrange.1 hrange.2, write_be_u32, hb]
      · exact absurd henc (by simp)
  · intro c c' raw hr
    unfold read_gpstow
    rw [hr]
    rfl

/-- Claim C2, witness: both directions at a concrete input (`0.125` encodes
to the bytes of `13`; the bytes of `13` decode to the binary64 `13 / 100.0`). -/
theorem claim_C2_witness :
    write_gpstow [] (.finite (1 / 8)) = [] ++ [0, 0, 0, 13] ∧
    read_gpstow ⟨[0, 0, 0, 13], 0⟩ = .ok (spec_decode 13 100, ⟨[0, 0, 0, 13], 4⟩) :=
  ⟨claim_C2_codec_matches_reference.1 (.finite (1 / 8)) [0, 0, 0, 13] []
      (by set_option maxRecDepth 1000000 in decide),
    claim_C2_codec_matches_reference.2 ⟨[0, 0, 0, 13], 0⟩ ⟨[0, 0, 0, 13], 4⟩ 13 (by decide)⟩

/-- Claim C3: serialize-then-decode round-trips the text message — for every
`AsciiData` value, `get_bytes` succeeds, and `build_from` over a cursor on
those bytes returns a message whose string equals the original. -/
theorem claim_C3_ascii_roundtrip (a : AsciiData) :
    ∃ bytes, a.get_bytes = .ok bytes ∧
      ∃ a' c', AsciiDataBuilder.build_from ⟨bytes, 0⟩ = .ok (a', c') ∧
        a'.message = a.message := by
  refine ⟨utf8Encode a.message, rfl, ⟨utf8LossyDecode (utf8Encode a.message)⟩,
    ⟨utf8Encode a.message, (utf8Encode a.message).length⟩, rfl, ?_⟩
  exact utf8_roundtrip a.message

/-- Claim C4: the concrete scenario — `write_gpstow` at the time-of-week
value `123456.78` (the binary64 nearest `12345678/100`) writes exactly the
big-endian bytes of `12345678`, and `read_gpstow` of those bytes returns
exactly that binary64 value. -/
theorem claim_C4_concrete_tow :
    write_gpstow [] (roundRat (12345678 / 100)) = [0, 188, 97, 78] ∧
    read_gpstow ⟨[0, 188, 97, 78], 0⟩ =
      .ok (roundRat (12345678 / 100), ⟨[0, 188, 97, 78], 4⟩) := by
  constructor
  · set_option maxRecDepth 1000000 in decide
  · set_option maxRecDepth 1000000 in decide

/-- Claim C5, counterexample: at the binary64 value nearest `85899345.91`,
the scaled result is `8589934591 ≥ 2^32`, and the written (saturated)
integer `4294967295` is congruent to it modulo `2^32` — so "the written
integer is not congruent to the scaled value mod `2^32`" fails. -/
theorem claim_C5_counterexample :
    gpstow_scaled (roundRat (8589934591 / 100)) = some 8589934591 ∧
    (2 : ℤ) ^ 32 ≤ 8589934591 ∧
    write_gpstow [] (roundRat (8589934591 / 100)) =
      be32 ((8589934591 : ℤ) % 2 ^ 32).toNat := by
  refine ⟨?_, by norm_num, ?_⟩
  · set_option maxRecDepth 1000000 in decide
  · set_option maxRecDepth 1000000 in decide

/-- Claim C5 (amended): `write_gpstow` never wraps the scaled value modulo
`2^32`; instead the Rust `as u32` cast saturates, writing `u32::MAX`
(`0xFFFFFFFF`) for every finite input whose scaled result is at least
`2^32`.  (The saturated integer can still coincide with the scaled value
modulo `2^32`, as the counterexample shows, so out-of-range inputs remain a
caller error as the spec demands.) -/
theorem claim_C5_saturates_not_wraps (v : Float64) (n : ℤ) (buf : List ℕ)
    (hs : gpstow_scaled v = some n) (hn : 2 ^ 32 ≤ n) :
    write_gpstow buf v = buf ++ [255, 255, 255, 255] := by
  unfold gpstow_scaled at hs
  rcases hm : fmul v GPSTOW_SCALE with _ | s | p <;> rw [hm] at hs
  · simp at hs
  · simp at hs
  · simp only [Option.some.injEq] at hs
    unfold write_gpstow
    rw [hm]
    simp only [fround]
    rw [hs, f64_as_u32_sat hn]
    unfold write_be_u32 be32
    norm_num

/-- Claim C5, witness: the saturation theorem applied at the binary64 value
nearest `85899345.91`, whose scaled result `8589934591` exceeds `u32::MAX`. -/
theorem claim_C5_witness :
    write_gpstow [] (roundRat (8589934591 / 100)) = [] ++ [255, 255, 255, 255] :=
  claim_C5_saturates_not_wraps (roundRat (8589934591 / 100)) 8589934591 []
    (by set_option maxRecDepth 1000000 in decide) (by norm_num)

/-- Claim C6: `read_gpstow` over an in-memory cursor fails with
`UnexpectedEnd` exactly when fewer than 4 bytes remain; on success it
consumes exactly 4 bytes (no partial result). -/
theorem claim_C6_unexpected_end_iff (c : Cursor) :
    (read_gpstow c = .error .UnexpectedEnd ↔ c.remaining.length < 4) ∧
    (∀ v c', read_gpstow c = .ok (v, c') → c'.data = c.data ∧ c'.pos = c.pos + 4) := by
  unfold read_gpstow read_be_u32 Cursor.remaining
  rcases hl : c.data.drop c.pos with _ | ⟨b0, _ | ⟨b1, _ | ⟨b2, _ | ⟨b3, rest⟩⟩⟩⟩ <;>
    simp_all

/-- Claim C6, witness: a 3-byte buffer fails with `UnexpectedEnd`. -/
theorem claim_C6_witness : read_gpstow ⟨[9, 9, 9], 0⟩ = .error .UnexpectedEnd :=
  (claim_C6_unexpected_end_iff ⟨[9, 9, 9], 0⟩).1.mpr (by decide)

/-- Claim C7: for every byte sequence (valid UTF-8 or not), `build_from`
returns `Ok` with the lossy decoding of the entire remaining payload —
undecodable sequences are replaced, the decode is never fatal, and no
payload bytes are left unconsumed. -/
theorem claim_C7_lossy_never_fails (c : Cursor) :
    ∃ c' : Cursor, AsciiDataBuilder.build_from c =
      .ok (⟨utf8LossyDecode c.remaining⟩, c') ∧ c'.remaining = [] := by
  refine ⟨⟨c.data, c.data.length⟩, rfl, ?_⟩
  simp [Cursor.remaining]

/-- Claim C8, counterexample: `AsciiData::get_type` does not return a value
normally — its body is the `todo!()` placeholder, which panics. -/
theorem claim_C8_counterexample :
    AsciiData.get_type ⟨[]⟩ ≠ Outcome.returns () ∧
    AsciiData.get_type ⟨[]⟩ = Outcome.panics :=
  ⟨by decide, rfl⟩

/-- Claim C8 (amended): for every `AsciiData` value, `get_type` panics with
the unimplemented `todo!()` placeholder instead of returning a type tag (and
its `PacketType` is the unit type, so no real identifier exists to return). -/
theorem claim_C8_get_type_panics (a : AsciiData) :
    AsciiData.get_type a = Outcome.panics := rfl

/-- Claim C9: decoding is deterministic — two cursors whose remaining byte
sequences are identical produce messages with equal strings (the decoder
consults no hidden state). -/
theorem claim_C9_deterministic (c1 c2 : Cursor) (h : c1.remaining = c2.remaining) :
    ∃ a1 c1' a2 c2', AsciiDataBuilder.build_from c1 = .ok (a1, c1') ∧
      AsciiDataBuilder.build_from c2 = .ok (a2, c2') ∧ a1.message = a2.message := by
  refine ⟨⟨utf8LossyDecode c1.remaining⟩, ⟨c1.data, c1.data.length⟩,
    ⟨utf8LossyDecode c2.remaining⟩, ⟨c2.data, c2.data.length⟩, rfl, rfl, ?_⟩
  simp [h]

/-- Claim C9, witness: two different cursors with the same remaining bytes
decode to equal messages. -/
theorem claim_C9_witness :
    ∃ a1 c1' a2 c2', AsciiDataBuilder.build_from ⟨[1, 65], 1⟩ = .ok (a1, c1') ∧
      AsciiDataBuilder.build_from ⟨[65], 0⟩ = .ok (a2, c2') ∧ a1.message = a2.message :=
  claim_C9_deterministic ⟨[1, 65], 1⟩ ⟨[65], 0⟩ (by decide)

/-- Claim C10: for every input that is NaN or whose scaled binary64 product
with 100 is negative, `write_gpstow` does not fail and writes the integer 0
(the saturating cast maps NaN and negatives to 0), and `read_gpstow` of the
resulting bytes returns `0.0`. -/
theorem claim_C10_nan_negative_write_zero (v : Float64) (buf : List ℕ)
    (h : v = .nan ∨ (fmul v GPSTOW_SCALE).isNeg = true) :
    write_gpstow buf v = buf ++ [0, 0, 0, 0] ∧
    read_gpstow ⟨write_gpstow [] v, 0⟩ = .ok (.finite 0, ⟨[0, 0, 0, 0], 4⟩) := by
  have hzero : f64_as_u32 (fround (fmul v GPSTOW_SCALE)) = 0 := by
    rcases h with h | h
    · subst h
      rfl
    · rcases hm : fmul v GPSTOW_SCALE with _ | s | p <;> rw [hm] at h
      · simp [Float64.isNeg] at h
      · simp only [Float64.isNeg] at h
        subst h
        rfl
      · simp only [Float64.isNeg, decide_eq_true_eq] at h
        simp only [fround]
        exact f64_as_u32_int_nonpos (roundAwayInt_nonpos h)
  have hw : ∀ out : List ℕ, write_gpstow out v = out ++ [0, 0, 0, 0] := by
    intro out
    unfold write_gpstow
    rw [hzero]
    rfl
  refine ⟨hw buf, ?_⟩
  rw [hw []]
  decide

/-- Claim C10, witness: the NaN input writes the zero bytes and reads back
as `0.0`. -/
theorem claim_C10_witness :
    write_gpstow [] Float64.nan = [] ++ [0, 0, 0, 0] ∧
    read_gpstow ⟨write_gpstow [] Float64.nan, 0⟩ = .ok (.finite 0, ⟨[0, 0, 0, 0], 4⟩) :=
  claim_C10_nan_negative_write_zero Float64.nan [] (Or.inl rfl)
